import Mathlib

/-!
Verification of the p-ratelimit admission-control library.

The definitions below are a shallow embedding of the TypeScript sources:

* `Quota`, `QuotaManager.start`, `QuotaManager.endCall`,
  `QuotaManager.removeExpiredHistory` embed `src/quota/quota.ts` and
  `src/quota/quotaManager.ts` (the revision with constructor validation).
* `Dequeue.shift` / `Dequeue.pop` embed `src/dequeue.ts`, with the
  double-ended queue abstracted as the list of its values, front first.
  In JavaScript, dereferencing a `null` node throws a `TypeError`;
  that outcome is embedded as `Except.error JsError.typeError`.
* `drainGo` / `stepL` / `runL` embed the dispatch-queue closure returned by
  `pRateLimit` (the revision with `maxDelay` / `RateLimitTimeoutError`
  support), as a deterministic event-step machine whose events are the
  points where the single-threaded runtime invokes the closure's callbacks.
* `updateQuota`, `messageV2` embed the `RedisQuotaManager` revisions cited
  by the claims.

Machine integers are modelled as `Nat` (timestamps, counts) and `Int`
(`activeCount`, which the code can drive negative); fallible code returns
`Except`.
-/

set_option maxHeartbeats 1000000

/-- Quota configuration (src/quota/quota.ts).  Absent fields are `none`,
mirroring `undefined` in JavaScript. -/
structure Quota where
  interval : Option Nat := none
  rate : Option Nat := none
  concurrency : Option Nat := none
  maxDelay : Option Nat := none
  fastStart : Bool := false
deriving Repr, DecidableEq

/-- A JavaScript runtime exception.  `typeError` is the `TypeError` thrown
when a property of `null`/`undefined` is dereferenced or destructured. -/
inductive JsError where
  | typeError
deriving Repr, DecidableEq

namespace Dequeue

/-- `Dequeue.push` (src/dequeue.ts): append a value at the back. -/
def push (d : List α) (v : α) : List α := d ++ [v]

/-- `Dequeue.peekFront` (src/dequeue.ts): returns `undefined` on an empty
buffer, modelled as `none`. -/
def peekFront (d : List α) : Option α := d.head?

/-- `Dequeue.peekBack` (src/dequeue.ts). -/
def peekBack (d : List α) : Option α := d.getLast?

/-- `Dequeue.shift` (src/dequeue.ts lines 62-70): remove and return the
front value.  On an empty buffer the source runs `this.head.next` with
`this.head === null`, which throws a `TypeError`. -/
def shift (d : List α) : Except JsError (α × List α) :=
  match d with
  | [] => .error .typeError
  | x :: rest => .ok (x, rest)

/-- `Dequeue.pop` (src/dequeue.ts lines 35-43): remove and return the back
value.  On an empty buffer the source runs `this.tail.prev` with
`this.tail === null`, which throws a `TypeError`. -/
def pop (d : List α) : Except JsError (α × List α) :=
  match d.reverse with
  | [] => .error .typeError
  | x :: rest => .ok (x, rest.reverse)

end Dequeue

/-- The mutable counters of a `QuotaManager`: `_activeCount` and the
`history` dequeue of admission timestamps (front = oldest).
`activeCount` is an `Int` because `end()` decrements without a guard. -/
structure QMState where
  activeCount : Int
  history : List Nat
deriving Repr, DecidableEq

/-- A freshly constructed `QuotaManager`. -/
def qmInit : QMState := ⟨0, []⟩

namespace QuotaManager

/-- The guard `this._activeCount >= this._quota.concurrency`.  When
`concurrency` is `undefined` the JavaScript comparison is false. -/
def concurrencyBlocked (q : Quota) (active : Int) : Bool :=
  match q.concurrency with
  | some c => decide ((c : Int) ≤ active)
  | none => false

/-- `QuotaManager.removeExpiredHistory` (quotaManager.ts lines 114-119):
shift history entries from the front while they are older than
`now - interval`.  `Nat` truncated subtraction agrees with the JavaScript
comparison against a possibly negative `expired`. -/
def removeExpiredHistory (interval now : Nat) (h : List Nat) : List Nat :=
  h.dropWhile (fun ts => decide (ts < now - interval))

/-- `QuotaManager.start` (quotaManager.ts lines 92-107), with `Date.now()`
passed in as `now`.  Returns the boolean result together with the state
after the call (pruning mutates the state even on a rate refusal). -/
def start (q : Quota) (now : Nat) (s : QMState) : Bool × QMState :=
  if concurrencyBlocked q s.activeCount then (false, s)
  else
    match q.interval, q.rate with
    | some interval, some rate =>
      let h := removeExpiredHistory interval now s.history
      if rate ≤ h.length then (false, { s with history := h })
      else (true, { activeCount := s.activeCount + 1, history := h ++ [now] })
    | _, _ => (true, { s with activeCount := s.activeCount + 1 })

/-- `QuotaManager.end` (quotaManager.ts lines 110-112): an unconditional
decrement of `_activeCount` (`end` is a reserved word in Lean). -/
def endCall (s : QMState) : QMState :=
  { s with activeCount := s.activeCount - 1 }

/-- The constructor's validation failure (quotaManager.ts lines 62-70):
a rate-limit quota must specify both `interval` and `rate`. -/
inductive QMError where
  | invalidQuota
deriving Repr, DecidableEq

/-- The validation predicate of the `QuotaManager` constructor
(quotaManager.ts lines 62-65): exactly one of `interval`/`rate` present. -/
def quotaInvalid (q : Quota) : Bool :=
  (q.interval.isSome && !q.rate.isSome) || (q.rate.isSome && !q.interval.isSome)

/-- The `QuotaManager` constructor (quotaManager.ts lines 54-71): throws on
an invalid quota, otherwise stores the quota. -/
def construct (q : Quota) : Except QMError Quota :=
  if quotaInvalid q then .error .invalidQuota else .ok q

end QuotaManager

/-- One external call to a `QuotaManager`: `start` or `end`, with the value
of `Date.now()` at the moment of the call. -/
inductive QMOp where
  | start (now : Nat)
  | done (now : Nat)
deriving Repr, DecidableEq

/-- The clock reading attached to an operation. -/
def QMOp.time : QMOp → Nat
  | .start t => t
  | .done t => t

/-- Apply one operation to a `QuotaManager` state. -/
def stepQM (q : Quota) (s : QMState) : QMOp → QMState
  | .start now => (QuotaManager.start q now s).2
  | .done _ => QuotaManager.endCall s

/-- Run a sequence of operations. -/
def runQM (q : Quota) (s : QMState) : List QMOp → QMState
  | [] => s
  | op :: rest => runQM q (stepQM q s op) rest

/-- The timestamps of the admissions (successful `start` calls) produced by
a sequence of operations, in order. -/
def admissions (q : Quota) (s : QMState) : List QMOp → List Nat
  | [] => []
  | .start now :: rest =>
    (if (QuotaManager.start q now s).1 then [now] else []) ++
      admissions q (stepQM q s (.start now)) rest
  | .done t :: rest => admissions q (stepQM q s (.done t)) rest

/-- `timesMono t ops`: the clock readings in `ops` are at least `t` and
nondecreasing (a sequence of calls observed in chronological order). -/
def timesMono : Nat → List QMOp → Bool
  | _, [] => true
  | t, op :: rest => decide (t ≤ op.time) && timesMono op.time rest

/-- `wellMatched q s pending ops`: every `end` in `ops` is preceded by a
matching successful `start` (`pending` counts unmatched admissions). -/
def wellMatched (q : Quota) (s : QMState) (pending : Nat) : List QMOp → Bool
  | [] => true
  | .start now :: rest =>
    wellMatched q (stepQM q s (.start now))
      (pending + (if (QuotaManager.start q now s).1 then 1 else 0)) rest
  | .done t :: rest =>
    decide (1 ≤ pending) && wellMatched q (stepQM q s (.done t)) (pending - 1) rest

/-- Membership of a timestamp in the sliding window `[T - I, T]` of length
`I` ending at `T` (`T ≤ a + I` is `T - I ≤ a` without truncation). -/
def inWindow (I T a : Nat) : Bool :=
  decide (T ≤ a + I) && decide (a ≤ T)

/-- `QuotaManager.maxDelay` getter: `this._quota.maxDelay || 0`. -/
def Quota.maxDelayVal (q : Quota) : Nat := q.maxDelay.getD 0

/-- State of the dispatch-queue closure returned by `pRateLimit`
(rateLimit.ts with `maxDelay` support).  Pending calls are numbered by
arrival: call `id` is scheduled before call `id'` iff `id < id'`.

* `queue` — ids of the `run` closures in the `Dequeue`, front first;
* `schedTime` — arrival clock of each call, indexed by id;
* `fired` — ids whose `maxDelay` timer fired (the caller's promise was
  rejected with `RateLimitTimeoutError` and the closure's `timerId` is
  `null`);
* `popped` — ids shifted off the queue by the drain loop, in pop order;
* `started` — popped ids whose wrapped `fn()` was invoked, in order;
* `skipped` — popped ids whose `run` returned early because the timer had
  already fired;
* `completed` — started ids whose `fn()` settled (`end()` was called). -/
structure LState where
  qm : QMState
  nextId : Nat
  queue : List Nat
  schedTime : List Nat
  fired : List Nat
  popped : List Nat
  started : List Nat
  skipped : List Nat
  completed : List Nat
deriving Repr, DecidableEq

/-- The state of a freshly created limiter. -/
def lInit : LState := ⟨qmInit, 0, [], [], [], [], [], [], []⟩

/-- The body of the `run` closure when the drain loop invokes it:
`if (quotaManager.maxDelay) { if (timerId) clearTimeout else return; }`
then `fn()`.  A call is skipped exactly when `maxDelay` is configured and
its timer already fired; otherwise its wrapped function starts. -/
def runPop (q : Quota) (id : Nat) (s : LState) : LState :=
  if decide (q.maxDelayVal ≠ 0) && s.fired.contains id then
    { s with skipped := s.skipped ++ [id] }
  else
    { s with started := s.started ++ [id] }

/-- The drain loop of `next()`:
`while (queue.length && quotaManager.start()) { queue.shift()(); }`.
`start` is evaluated only when the queue is non-empty; a refusal leaves the
call at the front (but keeps any pruning `start` performed). -/
def drainGo (q : Quota) (now : Nat) : List Nat → LState → LState
  | [], s => { s with queue := [] }
  | id :: rest, s =>
    match QuotaManager.start q now s.qm with
    | (true, qm') =>
      drainGo q now rest
        (runPop q id { s with qm := qm', queue := rest, popped := s.popped ++ [id] })
    | (false, qm') => { s with qm := qm', queue := id :: rest }

/-- `next()` entered at clock `now`. -/
def drain (q : Quota) (now : Nat) (s : LState) : LState :=
  drainGo q now s.queue s

/-- The points where the single-threaded runtime re-enters the limiter:

* `schedule now` — the limiter is invoked with a new call: push the `run`
  closure, arm the `maxDelay` timer if configured, run `next()`;
* `timerFire id now` — the `maxDelay` timer of call `id` fires (possible
  only while the timer is armed: `maxDelay ≠ 0`, the call still queued,
  the timer not yet fired, and `now` is its scheduling time plus
  `maxDelay`): reject with `RateLimitTimeoutError`, run `next()`;
* `complete id now` — the wrapped `fn()` of a started call settles:
  `quotaManager.end()` then `next()` (at most once per started call);
* `tick now` — the 100 ms recheck timer of `next()` fires: run `next()`.

A disabled event is a no-op, so an arbitrary event list ranges over
exactly the schedules the runtime can produce. -/
inductive LEvent where
  | schedule (now : Nat)
  | timerFire (id : Nat) (now : Nat)
  | complete (id : Nat) (now : Nat)
  | tick (now : Nat)
deriving Repr, DecidableEq

/-- One runtime event applied to the limiter state. -/
def stepL (q : Quota) (s : LState) : LEvent → LState
  | .schedule now =>
    drain q now
      { s with nextId := s.nextId + 1,
               schedTime := s.schedTime ++ [now],
               queue := s.queue ++ [s.nextId] }
  | .timerFire id now =>
    match s.schedTime.get? id with
    | some ts =>
      if decide (q.maxDelayVal ≠ 0) && decide (now = ts + q.maxDelayVal) &&
          s.queue.contains id && !(s.fired.contains id) then
        drain q now { s with fired := s.fired ++ [id] }
      else s
    | none => s
  | .complete id now =>
    if s.started.contains id && !(s.completed.contains id) then
      drain q now
        { s with completed := s.completed ++ [id], qm := QuotaManager.endCall s.qm }
    else s
  | .tick now => drain q now s

/-- Run a list of runtime events from a limiter state. -/
def runL (q : Quota) (s : LState) : List LEvent → LState
  | [] => s
  | e :: rest => runL q (stepL q s e) rest

/-- Reachability invariant of the limiter state. -/
structure LInv (q : Quota) (s : LState) : Prop where
  perm : s.popped ++ s.queue = List.range s.nextId
  pops : s.started.length + s.skipped.length = s.popped.length
  startedSub : s.started.Sublist s.popped
  skippedSub : s.skipped.Sublist s.popped
  startedNotFired : ∀ id ∈ s.started, id ∉ s.fired
  skippedFired : ∀ id ∈ s.skipped, id ∈ s.fired
  completedSub : ∀ id ∈ s.completed, id ∈ s.started
  completedNodup : s.completed.Nodup
  activeEq : s.qm.activeCount = (s.popped.length : Int) - (s.completed.length : Int)
  poppedFiredSkipped : ∀ id ∈ s.popped, id ∈ s.fired → id ∈ s.skipped
  noDelayNoFire : q.maxDelayVal = 0 → s.fired = [] ∧ s.skipped = []

/-- A Redis `Map` of client pings, as an association list in insertion
order (`Map.set` updates in place or appends). -/
def pingsSet (m : List (String × Nat)) (k : String) (v : Nat) :
    List (String × Nat) :=
  if m.any (fun kv => decide (kv.1 = k)) then
    m.map (fun kv => if kv.1 = k then (k, v) else kv)
  else m ++ [(k, v)]

/-- `Map.has`. -/
def pingsHas (m : List (String × Nat)) (k : String) : Bool :=
  m.any (fun kv => decide (kv.1 = k))

/-- `Map.delete`. -/
def pingsDelete (m : List (String × Nat)) (k : String) : List (String × Nat) :=
  m.filter (fun kv => decide (kv.1 ≠ k))

/-- `RedisQuotaManager.removeOutdatedClientPings`: delete every entry whose
timestamp `v` satisfies `v <= now - heartbeatInterval * 3` (over actual
integers, that is `v + hb * 3 <= now`). -/
def removeOutdatedClientPings (hb now : Nat) (m : List (String × Nat)) :
    List (String × Nat) :=
  m.filter (fun kv => decide (now < kv.2 + hb * 3))

/-- `RedisQuotaManager.updateQuota` (rateLimit.ts lines 307-319 and
part_003 lines 142-156): prune outdated pings; if none remain, keep the
current quota unchanged; otherwise copy the nominal channel quota, divide
`rate` by the peer count (flooring), divide `concurrency` the same way
when it is truthy (a configured 0 is falsy and is left as 0), and leave
`interval` / `maxDelay` as copied.  Returns the new effective quota and
the pruned ping map.  (In JS an absent `rate` would divide to `NaN`; the
distributed manager is always given a rate, and an absent rate is modelled
as staying absent.) -/
def updateQuota (channelQuota : Quota) (hb now : Nat)
    (m : List (String × Nat)) (cur : Quota) : Quota × List (String × Nat) :=
  let m' := removeOutdatedClientPings hb now m
  if m'.length = 0 then (cur, m')
  else
    ({ channelQuota with
        rate := channelQuota.rate.map (fun r => r / m'.length),
        concurrency :=
          match channelQuota.concurrency with
          | some c => if c ≠ 0 then some (c / m'.length) else some c
          | none => none },
      m')

/-- The state of a `RedisQuotaManager` relevant to its message handler. -/
structure RQMState where
  clientPings : List (String × Nat)
  channelQuota : Quota
  quota : Quota
  ready : Bool
deriving Repr, DecidableEq

/-- A gossip command, as the JSON object `\x7b command, value \x7d`. -/
inductive GossipCmd where
  | join (id : String) (q : Quota)
  | leave (id : String)
  | ping (id : String)
deriving Repr, DecidableEq

/-- The outcome of `JSON.parse` on an incoming pub/sub payload. -/
inductive ParsedMsg where
  | parsed (cmd : GossipCmd)
  | malformed (raw : String)
deriving Repr, DecidableEq

/-- `this.updateQuota()` applied to the manager state. -/
def rqmUpdateQuota (hb now : Nat) (st : RQMState) : RQMState :=
  let res := updateQuota st.channelQuota hb now st.clientPings st.quota
  { st with quota := res.1, clientPings := res.2 }

/-- `RedisQuotaManager.message` in the JOIN/PING/LEAVE revision
(rateLimit.ts lines 258-298).  On an unparseable payload the `catch` block
logs `invalid JSON on Redis pub/sub channel ...` but does not return, so
the following destructuring of the undefined `parsedMessage` throws a
`TypeError` out of the handler; no state is touched. -/
def messageV2 (selfId : String) (hb now : Nat) (st : RQMState) (m : ParsedMsg) :
    Except JsError RQMState :=
  match m with
  | .malformed _ => .error .typeError
  | .parsed cmd =>
    match cmd with
    | .join id quota =>
      if id ≠ selfId then
        let st1 := { st with clientPings := pingsSet st.clientPings id now,
                             channelQuota := quota }
        .ok (if st1.ready then rqmUpdateQuota hb now st1 else st1)
      else .ok st
    | .leave id =>
      let st1 := { st with clientPings := pingsDelete st.clientPings id }
      .ok (if st1.ready then rqmUpdateQuota hb now st1 else st1)
    | .ping id =>
      if pingsHas st.clientPings id then
        .ok { st with clientPings := pingsSet st.clientPings id now }
      else
        let st1 := { st with clientPings := pingsSet st.clientPings id now }
        .ok (if st1.ready then rqmUpdateQuota hb now st1 else st1)

/-- Invariant tying a `QuotaManager` state to the list `A` of all admission
timestamps so far, with `t` an upper bound on the clock readings seen:
the history is a suffix of `A` whose dropped prefix is expired relative to
`t`, and no sliding window of length `I` holds more than `r` of `A`. -/
def QMRateInv (I r t : Nat) (s : QMState) (A : List Nat) : Prop :=
  (∃ p, A = p ++ s.history ∧ ∀ a ∈ p, a + I < t) ∧
  (∀ T, A.countP (inWindow I T) ≤ r)

example : QuotaManager.start ⟨some 10, some 2, none, none, false⟩ 5 qmInit =
    (true, ⟨1, [5]⟩) := by decide

example : QuotaManager.start ⟨some 10, some 1, none, none, false⟩ 6 ⟨1, [5]⟩ =
    (false, ⟨1, [5]⟩) := by decide

example : runQM ⟨none, none, none, none, false⟩ qmInit [QMOp.done 0] = ⟨-1, []⟩ := by
  decide

lemma inWindow_eq_false_of_lt {I T a : Nat} (h : a + I < T) :
    inWindow I T a = false := by
  unfold inWindow
  rw [decide_eq_false (by omega : ¬ (T ≤ a + I))]
  simp

/-- Case analysis of `QuotaManager.start` when a rate quota is configured. -/
lemma start_rate_cases (q : Quota) {I r : Nat} (hI : q.interval = some I)
    (hr : q.rate = some r) (now : Nat) (s : QMState) :
    (QuotaManager.start q now s = (false, s)) ∨
    (r ≤ (QuotaManager.removeExpiredHistory I now s.history).length ∧
      QuotaManager.start q now s =
        (false, { s with history := QuotaManager.removeExpiredHistory I now s.history })) ∨
    ((QuotaManager.removeExpiredHistory I now s.history).length < r ∧
      QuotaManager.start q now s =
        (true, ⟨s.activeCount + 1,
          QuotaManager.removeExpiredHistory I now s.history ++ [now]⟩)) := by
  unfold QuotaManager.start
  rw [hI, hr]
  by_cases hcb : QuotaManager.concurrencyBlocked q s.activeCount
  · left; simp [hcb]
  · by_cases hlen : r ≤ (QuotaManager.removeExpiredHistory I now s.history).length
    · right; left
      refine ⟨hlen, ?_⟩
      simp [hcb, hlen]
    · right; right
      refine ⟨by omega, ?_⟩
      simp [hcb, hlen]

/-- The invariant is preserved by one `start` call at a later clock. -/
lemma qm_c1_step (q : Quota) {I r : Nat} (hI : q.interval = some I)
    (hr : q.rate = some r) {t now : Nat} (ht : t ≤ now) {s : QMState}
    {A : List Nat} (hinv : QMRateInv I r t s A) :
    QMRateInv I r now (QuotaManager.start q now s).2
      (A ++ (if (QuotaManager.start q now s).1 then [now] else [])) := by
  obtain ⟨⟨p, hA, hp⟩, hwin⟩ := hinv
  have htake : ∀ a ∈ s.history.takeWhile (fun ts => decide (ts < now - I)),
      a + I < now := by
    intro a ha
    have := List.mem_takeWhile_imp ha
    simp only [decide_eq_true_eq] at this
    omega
  obtain ⟨tw, hhist, htw⟩ :
      ∃ tw, s.history = tw ++ QuotaManager.removeExpiredHistory I now s.history ∧
        ∀ a ∈ tw, a + I < now :=
    ⟨_, (List.takeWhile_append_dropWhile _ _).symm, htake⟩
  rcases start_rate_cases q hI hr now s with hcase | ⟨hlen, hcase⟩ | ⟨hlen, hcase⟩
  · rw [hcase]
    refine ⟨⟨p, by simpa using hA, fun a ha => lt_of_lt_of_le (hp a ha) ht⟩, ?_⟩
    simpa using hwin
  · rw [hcase]
    generalize hdw : QuotaManager.removeExpiredHistory I now s.history = dw at hhist hlen ⊢
    refine ⟨⟨p ++ tw, ?_, ?_⟩, ?_⟩
    · show A ++ [] = (p ++ tw) ++ dw
      rw [hA, hhist]
      simp [List.append_assoc]
    · intro a ha
      rcases List.mem_append.mp ha with hmem | hmem
      · exact lt_of_lt_of_le (hp a hmem) ht
      · exact htw a hmem
    · simpa using hwin
  · rw [hcase]
    simp only [if_true]
    generalize hdw : QuotaManager.removeExpiredHistory I now s.history = dw at hhist hlen ⊢
    have hAdecomp : A = (p ++ tw) ++ dw := by
      rw [hA, hhist]
      simp [List.append_assoc]
    refine ⟨⟨p ++ tw, ?_, ?_⟩, ?_⟩
    · show A ++ [now] = (p ++ tw) ++ (dw ++ [now])
      rw [hAdecomp]
      simp [List.append_assoc]
    · intro a ha
      rcases List.mem_append.mp ha with hmem | hmem
      · exact lt_of_lt_of_le (hp a hmem) ht
      · exact htw a hmem
    · intro T
      rw [List.countP_append]
      by_cases hTnow : inWindow I T now = true
      case neg =>
        rw [Bool.not_eq_true] at hTnow
        have hone : List.countP (inWindow I T) [now] = 0 := by
          simp [List.countP_cons, hTnow]
        have := hwin T
        omega
      case pos =>
        have hTle : now ≤ T := by
          unfold inWindow at hTnow
          rw [Bool.and_eq_true, decide_eq_true_eq, decide_eq_true_eq] at hTnow
          exact hTnow.2
        have hAcount : A.countP (inWindow I T) =
            (p ++ tw).countP (inWindow I T) + dw.countP (inWindow I T) := by
          rw [hAdecomp, List.countP_append]
        have hzero : (p ++ tw).countP (inWindow I T) = 0 := by
          rw [List.countP_eq_zero]
          intro a ha
          rcases List.mem_append.mp ha with hmem | hmem
          · simp [inWindow_eq_false_of_lt (show a + I < T by
              have := hp a hmem; omega)]
          · simp [inWindow_eq_false_of_lt (show a + I < T by
              have := htw a hmem; omega)]
        have hcnt : dw.countP (inWindow I T) ≤ dw.length :=
          List.countP_le_length _
        have hone : List.countP (inWindow I T) [now] ≤ 1 := by
          simpa using List.countP_le_length (l := [now]) (p := inWindow I T)
        omega

/-- Effect of one `start` call on `activeCount`: it increments exactly when
the call is admitted, and an admitted call was not blocked by concurrency. -/
lemma start_activeCount (q : Quota) (now : Nat) (s : QMState) :
    (QuotaManager.start q now s).2.activeCount =
      s.activeCount + (if (QuotaManager.start q now s).1 then 1 else 0) ∧
    ((QuotaManager.start q now s).1 = true →
      QuotaManager.concurrencyBlocked q s.activeCount = false) := by
  unfold QuotaManager.start
  by_cases hcb : QuotaManager.concurrencyBlocked q s.activeCount
  · simp [hcb]
  · rw [Bool.not_eq_true] at hcb
    rcases hIq : q.interval with _ | I
    · simp [hcb, hIq]
    · rcases hrq : q.rate with _ | r
      · simp [hcb, hIq, hrq]
      · simp only [hcb, hIq, hrq, Bool.false_eq_true, if_false]
        split
        · simp
        · simp [hcb]

/-- Running any chronologically ordered operation sequence preserves the
sliding-window bound on the accumulated admission list. -/
lemma qm_c1_run (q : Quota) {I r : Nat} (hI : q.interval = some I)
    (hr : q.rate = some r) :
    ∀ (ops : List QMOp) (s : QMState) (A : List Nat) (t : Nat),
      QMRateInv I r t s A → timesMono t ops = true →
      ∀ T, (A ++ admissions q s ops).countP (inWindow I T) ≤ r := by
  intro ops
  induction ops with
  | nil =>
    intro s A t hinv _ T
    simpa using hinv.2 T
  | cons op rest ih =>
    intro s A t hinv hmono T
    cases op with
    | start now =>
      simp only [timesMono, QMOp.time, Bool.and_eq_true, decide_eq_true_eq] at hmono
      obtain ⟨ht, hrest⟩ := hmono
      have hstep := qm_c1_step q hI hr ht hinv
      have hrec := ih (QuotaManager.start q now s).2
        (A ++ (if (QuotaManager.start q now s).1 then [now] else [])) now hstep hrest T
      simpa [admissions, stepQM, List.append_assoc] using hrec
    | done now =>
      simp only [timesMono, QMOp.time, Bool.and_eq_true, decide_eq_true_eq] at hmono
      obtain ⟨ht, hrest⟩ := hmono
      have hinv' : QMRateInv I r now (QuotaManager.endCall s) A := by
        obtain ⟨⟨p, hA, hp⟩, hwin⟩ := hinv
        exact ⟨⟨p, hA, fun a ha => lt_of_lt_of_le (hp a ha) ht⟩, hwin⟩
      have hrec := ih (QuotaManager.endCall s) A now hinv' hrest T
      simpa [admissions, stepQM] using hrec

/-- `activeCount` stays at most `c` under any operation sequence when the
quota's concurrency is `c`. -/
lemma c2_run_le (q : Quota) {c : Nat} (hc : q.concurrency = some c) :
    ∀ (ops : List QMOp) (s : QMState), s.activeCount ≤ (c : Int) →
      (runQM q s ops).activeCount ≤ (c : Int) := by
  intro ops
  induction ops with
  | nil =>
    intro s hs
    simpa [runQM] using hs
  | cons op rest ih =>
    intro s hs
    cases op with
    | start now =>
      show (runQM q (stepQM q s (.start now)) rest).activeCount ≤ (c : Int)
      apply ih
      obtain ⟨heq, hblocked⟩ := start_activeCount q now s
      by_cases hb : (QuotaManager.start q now s).1 = true
      · have hfalse := hblocked hb
        unfold QuotaManager.concurrencyBlocked at hfalse
        rw [hc] at hfalse
        simp only [decide_eq_false_iff_not, not_le] at hfalse
        show (QuotaManager.start q now s).2.activeCount ≤ (c : Int)
        rw [heq, hb]
        simp only [if_true]
        omega
      · rw [Bool.not_eq_true] at hb
        show (QuotaManager.start q now s).2.activeCount ≤ (c : Int)
        rw [heq, hb]
        simpa using hs
    | done now =>
      show (runQM q (stepQM q s (.done now)) rest).activeCount ≤ (c : Int)
      apply ih
      show (QuotaManager.endCall s).activeCount ≤ (c : Int)
      unfold QuotaManager.endCall
      simp only
      omega

/-- Under the matched-release discipline `activeCount` tracks the number of
unmatched admissions exactly, hence never goes negative. -/
lemma c9_run_nonneg (q : Quota) :
    ∀ (ops : List QMOp) (s : QMState) (pending : Nat),
      s.activeCount = (pending : Int) → wellMatched q s pending ops = true →
      0 ≤ (runQM q s ops).activeCount := by
  intro ops
  induction ops with
  | nil =>
    intro s pending hs _
    simp only [runQM, hs]
    omega
  | cons op rest ih =>
    intro s pending hs hm
    cases op with
    | start now =>
      simp only [wellMatched] at hm
      show 0 ≤ (runQM q (stepQM q s (.start now)) rest).activeCount
      obtain ⟨heq, _⟩ := start_activeCount q now s
      by_cases hb : (QuotaManager.start q now s).1 = true
      · refine ih _ (pending + 1) ?_ ?_
        · show (QuotaManager.start q now s).2.activeCount = ((pending + 1 : Nat) : Int)
          rw [heq, hb, hs]
          simp
        · simpa [hb] using hm
      · rw [Bool.not_eq_true] at hb
        refine ih _ pending ?_ ?_
        · show (QuotaManager.start q now s).2.activeCount = (pending : Int)
          rw [heq, hb, hs]
          simp
        · simpa [hb] using hm
    | done now =>
      simp only [wellMatched, Bool.and_eq_true, decide_eq_true_eq] at hm
      obtain ⟨hp1, hm⟩ := hm
      show 0 ≤ (runQM q (stepQM q s (.done now)) rest).activeCount
      refine ih _ (pending - 1) ?_ hm
      show (QuotaManager.endCall s).activeCount = ((pending - 1 : Nat) : Int)
      unfold QuotaManager.endCall
      simp only
      omega

lemma runPop_queue (q : Quota) (id : Nat) (s : LState) :
    (runPop q id s).queue = s.queue := by
  unfold runPop
  split <;> rfl

lemma runPop_fired (q : Quota) (id : Nat) (s : LState) :
    (runPop q id s).fired = s.fired := by
  unfold runPop
  split <;> rfl

lemma drainGo_cons (q : Quota) (now id : Nat) (rest : List Nat) (s : LState) :
    drainGo q now (id :: rest) s =
      if (QuotaManager.start q now s.qm).1 then
        drainGo q now rest
          (runPop q id { s with qm := (QuotaManager.start q now s.qm).2,
                                queue := rest, popped := s.popped ++ [id] })
      else { s with qm := (QuotaManager.start q now s.qm).2,
                    queue := id :: rest } := by
  show (match QuotaManager.start q now s.qm with
    | (true, qm') =>
      drainGo q now rest
        (runPop q id { s with qm := qm', queue := rest, popped := s.popped ++ [id] })
    | (false, qm') => { s with qm := qm', queue := id :: rest }) = _
  rcases hst : QuotaManager.start q now s.qm with ⟨b, qm'⟩
  cases b <;> simp

lemma drainGo_fired (q : Quota) (now : Nat) :
    ∀ (qu : List Nat) (s : LState), (drainGo q now qu s).fired = s.fired := by
  intro qu
  induction qu with
  | nil => intro s; rfl
  | cons id rest ih =>
    intro s
    rw [drainGo_cons]
    by_cases hb : (QuotaManager.start q now s.qm).1 = true
    · rw [if_pos hb, ih, runPop_fired]
    · rw [if_neg hb]

/-- The invariant survives popping the front call when `start` admits it. -/
lemma pop_step_inv (q : Quota) (now id : Nat) (rest : List Nat) (s : LState)
    (hq : s.queue = id :: rest) (hb : (QuotaManager.start q now s.qm).1 = true)
    (h : LInv q s) :
    LInv q (runPop q id { s with qm := (QuotaManager.start q now s.qm).2,
                                 queue := rest, popped := s.popped ++ [id] }) := by
  obtain ⟨hperm, hpops, hssub, hksub, hsnf, hkf, hcsub, hcnd, hact, hpfs, hnd⟩ := h
  rw [hq] at hperm
  have hpermA : (s.popped ++ [id]) ++ rest = List.range s.nextId := by
    rw [List.append_assoc]
    simpa using hperm
  have hact' : (QuotaManager.start q now s.qm).2.activeCount = s.qm.activeCount + 1 := by
    obtain ⟨heq, _⟩ := start_activeCount q now s.qm
    rw [heq, hb]
    simp
  unfold runPop
  split
  case isTrue hcond =>
    simp only at hcond
    rw [Bool.and_eq_true, decide_eq_true_eq] at hcond
    obtain ⟨hmd, hin⟩ := hcond
    have hidf : id ∈ s.fired := by simpa using hin
    refine ⟨hpermA, ?_, ?_, ?_, ?_, ?_, ?_, hcnd, ?_, ?_, ?_⟩
    · show s.started.length + (s.skipped ++ [id]).length = (s.popped ++ [id]).length
      simp only [List.length_append, List.length_singleton]
      omega
    · exact hssub.trans (List.sublist_append_left _ _)
    · exact hksub.append (List.Sublist.refl [id])
    · exact hsnf
    · intro x hx
      rcases List.mem_append.mp hx with hx | hx
      · exact hkf x hx
      · rw [List.mem_singleton] at hx
        subst hx
        exact hidf
    · exact hcsub
    · show (QuotaManager.start q now s.qm).2.activeCount =
        ((s.popped ++ [id]).length : Int) - (s.completed.length : Int)
      rw [hact', hact]
      simp only [List.length_append, List.length_singleton]
      push_cast
      ring
    · intro x hx hxf
      rcases List.mem_append.mp hx with hx | hx
      · exact List.mem_append_left _ (hpfs x hx hxf)
      · exact List.mem_append_right _ hx
    · intro h0
      exact absurd h0 hmd
  case isFalse hcond =>
    simp only at hcond
    rw [Bool.and_eq_true, decide_eq_true_eq] at hcond
    push_neg at hcond
    have hnotf : id ∉ s.fired := by
      by_cases h0 : q.maxDelayVal = 0
      · rw [(hnd h0).1]
        simp
      · have := hcond h0
        simpa using this
    refine ⟨hpermA, ?_, ?_, ?_, ?_, ?_, ?_, hcnd, ?_, ?_, ?_⟩
    · show (s.started ++ [id]).length + s.skipped.length = (s.popped ++ [id]).length
      simp only [List.length_append, List.length_singleton]
      omega
    · exact hssub.append (List.Sublist.refl [id])
    · exact hksub.trans (List.sublist_append_left _ _)
    · intro x hx
      rcases List.mem_append.mp hx with hx | hx
      · exact hsnf x hx
      · rw [List.mem_singleton] at hx
        subst hx
        exact hnotf
    · exact hkf
    · intro x hx
      exact List.mem_append_left _ (hcsub x hx)
    · show (QuotaManager.start q now s.qm).2.activeCount =
        ((s.popped ++ [id]).length : Int) - (s.completed.length : Int)
      rw [hact', hact]
      simp only [List.length_append, List.length_singleton]
      push_cast
      ring
    · intro x hx hxf
      rcases List.mem_append.mp hx with hx | hx
      · exact hpfs x hx hxf
      · rw [List.mem_singleton] at hx
        subst hx
        exact absurd hxf hnotf
    · intro h0
      exact ⟨(hnd h0).1, (hnd h0).2⟩

/-- The invariant survives a full drain cycle. -/
lemma drainGo_inv (q : Quota) (now : Nat) :
    ∀ (qu : List Nat) (s : LState), s.queue = qu → LInv q s →
      LInv q (drainGo q now qu s) := by
  intro qu
  induction qu with
  | nil =>
    intro s hq h
    have he : drainGo q now [] s = s := by
      show ({ s with queue := ([] : List Nat) } : LState) = s
      rw [← hq]
    rw [he]
    exact h
  | cons id rest ih =>
    intro s hq h
    rw [drainGo_cons]
    by_cases hb : (QuotaManager.start q now s.qm).1 = true
    · rw [if_pos hb]
      exact ih _ (runPop_queue ..) (pop_step_inv q now id rest s hq hb h)
    · rw [if_neg hb]
      rw [Bool.not_eq_true] at hb
      obtain ⟨hperm, hpops, hssub, hksub, hsnf, hkf, hcsub, hcnd, hact, hpfs, hnd⟩ := h
      have hact' : (QuotaManager.start q now s.qm).2.activeCount = s.qm.activeCount := by
        obtain ⟨heq, _⟩ := start_activeCount q now s.qm
        rw [heq, hb]
        simp
      refine ⟨?_, hpops, hssub, hksub, hsnf, hkf, hcsub, hcnd, ?_, hpfs, hnd⟩
      · show s.popped ++ (id :: rest) = List.range s.nextId
        rw [← hq]
        exact hperm
      · show (QuotaManager.start q now s.qm).2.activeCount =
          (s.popped.length : Int) - (s.completed.length : Int)
        rw [hact']
        exact hact

/-- The invariant survives any runtime event. -/
lemma stepL_inv (q : Quota) (s : LState) (e : LEvent) (h : LInv q s) :
    LInv q (stepL q s e) := by
  cases e with
  | schedule now =>
    apply drainGo_inv q now _ _ rfl
    obtain ⟨hperm, hpops, hssub, hksub, hsnf, hkf, hcsub, hcnd, hact, hpfs, hnd⟩ := h
    refine ⟨?_, hpops, hssub, hksub, hsnf, hkf, hcsub, hcnd, hact, hpfs, hnd⟩
    show s.popped ++ (s.queue ++ [s.nextId]) = List.range (s.nextId + 1)
    rw [List.range_succ, ← hperm]
    simp [List.append_assoc]
  | timerFire id now =>
    show LInv q (match s.schedTime.get? id with
      | some ts =>
        if decide (q.maxDelayVal ≠ 0) && decide (now = ts + q.maxDelayVal) &&
            s.queue.contains id && !(s.fired.contains id) then
          drain q now { s with fired := s.fired ++ [id] }
        else s
      | none => s)
    rcases hst : s.schedTime.get? id with _ | ts
    · exact h
    · dsimp only
      by_cases hcond : (decide (q.maxDelayVal ≠ 0) && decide (now = ts + q.maxDelayVal) &&
          s.queue.contains id && !(s.fired.contains id)) = true
      · rw [if_pos hcond]
        apply drainGo_inv q now _ _ rfl
        rw [Bool.and_eq_true, Bool.and_eq_true, Bool.and_eq_true] at hcond
        obtain ⟨⟨⟨hmd, _⟩, hinq⟩, _⟩ := hcond
        rw [decide_eq_true_eq] at hmd
        have hidq : id ∈ s.queue := by simpa using hinq
        obtain ⟨hperm, hpops, hssub, hksub, hsnf, hkf, hcsub, hcnd, hact, hpfs, hnd⟩ := h
        have hnodup : (s.popped ++ s.queue).Nodup := by
          rw [hperm]
          exact List.nodup_range _
        have hdisj := (List.nodup_append.mp hnodup).2.2
        have hidnp : id ∉ s.popped := fun hp => hdisj hp hidq
        refine ⟨hperm, hpops, hssub, hksub, ?_, ?_, hcsub, hcnd, hact, ?_, ?_⟩
        · intro x hx
          rw [List.mem_append, List.mem_singleton]
          rintro (hxf | hxid)
          · exact hsnf x hx hxf
          · subst hxid
            exact hidnp (hssub.subset hx)
        · intro x hx
          exact List.mem_append_left _ (hkf x hx)
        · intro x hx hxf
          rcases List.mem_append.mp hxf with hxf | hxf
          · exact hpfs x hx hxf
          · rw [List.mem_singleton] at hxf
            subst hxf
            exact absurd hx hidnp
        · intro h0
          exact absurd h0 hmd
      · rw [if_neg hcond]
        exact h
  | complete id now =>
    show LInv q (if s.started.contains id && !(s.completed.contains id) then
      drain q now
        { s with completed := s.completed ++ [id], qm := QuotaManager.endCall s.qm }
      else s)
    by_cases hcond : (s.started.contains id && !(s.completed.contains id)) = true
    · rw [if_pos hcond]
      apply drainGo_inv q now _ _ rfl
      rw [Bool.and_eq_true] at hcond
      obtain ⟨hins, hnc⟩ := hcond
      have hids : id ∈ s.started := by simpa using hins
      have hidnc : id ∉ s.completed := by simpa using hnc
      obtain ⟨hperm, hpops, hssub, hksub, hsnf, hkf, hcsub, hcnd, hact, hpfs, hnd⟩ := h
      refine ⟨hperm, hpops, hssub, hksub, hsnf, hkf, ?_, ?_, ?_, hpfs, hnd⟩
      · intro x hx
        rcases List.mem_append.mp hx with hx | hx
        · exact hcsub x hx
        · rw [List.mem_singleton] at hx
          subst hx
          exact hids
      · rw [List.nodup_append]
        refine ⟨hcnd, List.nodup_singleton id, ?_⟩
        intro x hx hx'
        rw [List.mem_singleton] at hx'
        subst hx'
        exact hidnc hx
      · show (QuotaManager.endCall s.qm).activeCount =
          (s.popped.length : Int) - ((s.completed ++ [id]).length : Int)
        unfold QuotaManager.endCall
        simp only [List.length_append, List.length_singleton]
        rw [hact]
        push_cast
        ring
    · rw [if_neg hcond]
      exact h
  | tick now => exact drainGo_inv q now _ _ rfl h

/-- The invariant holds in every reachable limiter state. -/
lemma runL_inv (q : Quota) (evs : List LEvent) : LInv q (runL q lInit evs) := by
  suffices hgen : ∀ (l : List LEvent) (s : LState), LInv q s → LInv q (runL q s l) by
    refine hgen evs lInit ?_
    refine ⟨rfl, rfl, List.nil_sublist _, List.nil_sublist _, ?_, ?_, ?_,
      List.nodup_nil, rfl, ?_, fun _ => ⟨rfl, rfl⟩⟩ <;> simp [lInit]
  intro l
  induction l with
  | nil => intro s h; exact h
  | cons e rest ih => intro s h; exact ih _ (stepL_inv q s e h)

/-- Calls start running in id (= arrival) order. -/
lemma linv_started_pairwise (q : Quota) (s : LState) (h : LInv q s) :
    s.started.Pairwise (· < ·) := by
  have hp : s.popped = (List.range s.nextId).take s.popped.length := by
    rw [← h.perm, List.take_left]
  have hpl : s.popped.Pairwise (· < ·) := by
    rw [hp, List.take_range]
    exact List.pairwise_lt_range _
  exact hpl.sublist h.startedSub

/-- In a strictly increasing list, `indexOf` is monotone. -/
lemma pairwise_indexOf_lt {l : List Nat} (hl : l.Pairwise (· < ·)) {i j : Nat}
    (hi : i ∈ l) (hj : j ∈ l) (hij : i < j) :
    l.indexOf i < l.indexOf j := by
  induction l with
  | nil => simp at hi
  | cons a t ih =>
    rw [List.pairwise_cons] at hl
    obtain ⟨ha, ht⟩ := hl
    by_cases hia : i = a
    · subst hia
      have hja : j ≠ i := by omega
      rw [List.indexOf_cons_self, List.indexOf_cons_ne t (Ne.symm hja)]
      omega
    · have hit : i ∈ t := by
        rcases List.mem_cons.mp hi with hcase | hcase
        · exact absurd hcase hia
        · exact hcase
      have hja : j ≠ a := by
        intro hEq
        subst hEq
        have := ha i hit
        omega
      rw [List.indexOf_cons_ne t (fun hEq => hia hEq.symm),
        List.indexOf_cons_ne t (fun hEq => hja hEq.symm)]
      have := ih ht hit (by
        rcases List.mem_cons.mp hj with hcase | hcase
        · exact absurd hcase hja
        · exact hcase)
      omega

/-- C1: for every quota with both `rate` and `interval` configured and
every (chronologically ordered) sequence of `start`/`end` operations at
arbitrary times, the number of admissions whose timestamps fall within any
sliding window `[T - interval, T]` never exceeds `rate`: `start` prunes
history entries older than `now - interval`, refuses when
`history.length >= rate`, and appends the current time on every
admission. -/
theorem c1_sliding_window_never_exceeds_rate (q : Quota) {I r : Nat}
    (hI : q.interval = some I) (hr : q.rate = some r) (ops : List QMOp)
    (hmono : timesMono 0 ops = true) (T : Nat) :
    (admissions q qmInit ops).countP (inWindow I T) ≤ r := by
  have hbase : QMRateInv I r 0 qmInit [] := ⟨⟨[], rfl, by simp⟩, by simp⟩
  simpa using qm_c1_run q hI hr ops qmInit [] 0 hbase hmono T

theorem c1_witness :
    timesMono 0 [QMOp.start 1, QMOp.start 2, QMOp.start 3, QMOp.done 4,
      QMOp.start 15] = true ∧
    (admissions ⟨some 10, some 2, none, none, false⟩ qmInit
      [QMOp.start 1, QMOp.start 2, QMOp.start 3, QMOp.done 4,
        QMOp.start 15]).countP (inWindow 10 11) ≤ 2 :=
  ⟨by decide,
    c1_sliding_window_never_exceeds_rate ⟨some 10, some 2, none, none, false⟩
      rfl rfl _ (by decide) 11⟩

/-- C2: for every quota with `concurrency` defined and every sequence of
`start`/`end` calls in which every `end` is preceded by a matching
successful `start`, `activeCount` never exceeds `concurrency`; moreover
`start` returns `false` immediately, without mutating any state, whenever
`activeCount >= concurrency`. -/
theorem c2_concurrency_never_exceeded (q : Quota) {c : Nat}
    (hc : q.concurrency = some c) (ops : List QMOp)
    (hm : wellMatched q qmInit 0 ops = true) :
    (runQM q qmInit ops).activeCount ≤ (c : Int) ∧
    ∀ (s : QMState) (now : Nat), (c : Int) ≤ s.activeCount →
      QuotaManager.start q now s = (false, s) := by
  refine ⟨c2_run_le q hc ops qmInit (by simp [qmInit]), ?_⟩
  intro s now hge
  unfold QuotaManager.start QuotaManager.concurrencyBlocked
  rw [hc]
  simp [hge]

theorem c2_witness :
    wellMatched ⟨none, none, some 2, none, false⟩ qmInit 0
      [QMOp.start 0, QMOp.start 1, QMOp.start 2, QMOp.done 3] = true ∧
    (runQM ⟨none, none, some 2, none, false⟩ qmInit
      [QMOp.start 0, QMOp.start 1, QMOp.start 2,
        QMOp.done 3]).activeCount ≤ (2 : Int) :=
  ⟨by decide,
    (c2_concurrency_never_exceeded ⟨none, none, some 2, none, false⟩ rfl _
      (by decide)).1⟩

/-- C3: a call whose `maxDelay` timer fires is rejected with
`RateLimitTimeoutError` (recorded in `fired`) and its wrapped function
never runs; when the drain later pops it, it is discarded (`skipped`); the
timer can fire only at `schedTime + maxDelay` while the call is still
queued (not yet admitted); and when `maxDelay` is 0/unset, no call is ever
timeout-rejected and calls leave the queue only by being admitted and
started. -/
theorem c3_maxDelay_timeout (q : Quota) (evs : List LEvent) :
    (∀ id ∈ (runL q lInit evs).fired, id ∉ (runL q lInit evs).started) ∧
    (∀ id ∈ (runL q lInit evs).popped, id ∈ (runL q lInit evs).fired →
      id ∈ (runL q lInit evs).skipped) ∧
    (q.maxDelayVal = 0 → (runL q lInit evs).fired = [] ∧
      (runL q lInit evs).started = (runL q lInit evs).popped) ∧
    (∀ (s : LState) (id ts : Nat), q.maxDelayVal ≠ 0 →
      s.schedTime.get? id = some ts → id ∈ s.queue → id ∉ s.fired →
      id ∈ (stepL q s (.timerFire id (ts + q.maxDelayVal))).fired) := by
  have h := runL_inv q evs
  refine ⟨?_, h.poppedFiredSkipped, ?_, ?_⟩
  · intro id hf hs
    exact h.startedNotFired id hs hf
  · intro h0
    obtain ⟨hf, hk⟩ := h.noDelayNoFire h0
    refine ⟨hf, ?_⟩
    have hlen : (runL q lInit evs).started.length =
        (runL q lInit evs).popped.length := by
      have := h.pops
      rw [hk] at this
      simpa using this
    exact h.startedSub.eq_of_length hlen
  · intro s id ts hmd hget hq hnf
    show id ∈ (match s.schedTime.get? id with
      | some ts' =>
        if decide (q.maxDelayVal ≠ 0) &&
            decide (ts + q.maxDelayVal = ts' + q.maxDelayVal) &&
            s.queue.contains id && !(s.fired.contains id) then
          drain q (ts + q.maxDelayVal) { s with fired := s.fired ++ [id] }
        else s
      | none => s).fired
    rw [hget]
    dsimp only
    have hcond : (decide (q.maxDelayVal ≠ 0) &&
        decide (ts + q.maxDelayVal = ts + q.maxDelayVal) &&
        s.queue.contains id && !(s.fired.contains id)) = true := by
      simp [hmd, hq, hnf]
    rw [if_pos hcond]
    unfold drain
    rw [drainGo_fired]
    simp

theorem c3_witness :
    0 ∈ (runL ⟨none, none, some 0, some 5, false⟩ lInit
      [.schedule 0, .timerFire 0 5]).fired ∧
    0 ∉ (runL ⟨none, none, some 0, some 5, false⟩ lInit
      [.schedule 0, .timerFire 0 5]).started :=
  ⟨by decide,
    (c3_maxDelay_timeout ⟨none, none, some 0, some 5, false⟩
      [.schedule 0, .timerFire 0 5]).1 0 (by decide)⟩

/-- C4: FIFO dispatch.  Call ids are assigned in scheduling order (call
`i` was scheduled strictly before call `j` iff `i < j`); if both calls
eventually start running, `i` starts running no later than `j` (its
position in the start order is strictly earlier). -/
theorem c4_fifo_dispatch (q : Quota) (evs : List LEvent) (i j : Nat)
    (hij : i < j) (hi : i ∈ (runL q lInit evs).started)
    (hj : j ∈ (runL q lInit evs).started) :
    (runL q lInit evs).started.indexOf i <
      (runL q lInit evs).started.indexOf j :=
  pairwise_indexOf_lt (linv_started_pairwise q _ (runL_inv q evs)) hi hj hij

theorem c4_witness :
    0 ∈ (runL ⟨none, none, some 2, none, false⟩ lInit
      [.schedule 0, .schedule 1]).started ∧
    1 ∈ (runL ⟨none, none, some 2, none, false⟩ lInit
      [.schedule 0, .schedule 1]).started ∧
    (runL ⟨none, none, some 2, none, false⟩ lInit
      [.schedule 0, .schedule 1]).started.indexOf 0 <
      (runL ⟨none, none, some 2, none, false⟩ lInit
        [.schedule 0, .schedule 1]).started.indexOf 1 :=
  ⟨by decide, by decide,
    c4_fifo_dispatch ⟨none, none, some 2, none, false⟩
      [.schedule 0, .schedule 1] 0 1 (by decide) (by decide) (by decide)⟩

/-- C5: when `updateQuota` runs with a non-empty set of non-expired peer
records of size `n`, the new effective quota has
`rate = floor(nominalRate / n)`, `concurrency = floor(nominalConcurrency / n)`
when concurrency was configured, and `interval` and `maxDelay` are the
nominal values unchanged. -/
theorem c5_quota_share (nominal cur : Quota) (pings : List (String × Nat))
    (hb now : Nat) {R : Nat} (hR : nominal.rate = some R)
    (hne : (removeOutdatedClientPings hb now pings).length ≠ 0) :
    (updateQuota nominal hb now pings cur).1.rate =
      some (R / (removeOutdatedClientPings hb now pings).length) ∧
    (∀ C, nominal.concurrency = some C →
      (updateQuota nominal hb now pings cur).1.concurrency =
        some (C / (removeOutdatedClientPings hb now pings).length)) ∧
    (updateQuota nominal hb now pings cur).1.interval = nominal.interval ∧
    (updateQuota nominal hb now pings cur).1.maxDelay = nominal.maxDelay := by
  unfold updateQuota
  rw [if_neg hne]
  refine ⟨?_, ?_, rfl, rfl⟩
  · rw [hR]
    rfl
  · intro C hC
    rw [hC]
    dsimp only
    by_cases hC0 : C = 0
    · subst hC0
      rw [if_neg (by simp)]
      simp
    · rw [if_pos hC0]

theorem c5_witness :
    (updateQuota ⟨some 500, some 4, some 2, some 9, false⟩ 30 100
      [("a", 100), ("b", 100)] ⟨some 1000, some 0, some 0, none, false⟩).1.rate =
      some (4 / 2) ∧
    (updateQuota ⟨some 500, some 4, some 2, some 9, false⟩ 30 100
      [("a", 100), ("b", 100)]
      ⟨some 1000, some 0, some 0, none, false⟩).1.concurrency = some (2 / 2) ∧
    (updateQuota ⟨some 500, some 4, some 2, some 9, false⟩ 30 100
      [("a", 100), ("b", 100)]
      ⟨some 1000, some 0, some 0, none, false⟩).1.interval = some 500 :=
  ⟨(c5_quota_share ⟨some 500, some 4, some 2, some 9, false⟩
      ⟨some 1000, some 0, some 0, none, false⟩ [("a", 100), ("b", 100)] 30 100
      rfl (by decide)).1,
    (c5_quota_share ⟨some 500, some 4, some 2, some 9, false⟩
      ⟨some 1000, some 0, some 0, none, false⟩ [("a", 100), ("b", 100)] 30 100
      rfl (by decide)).2.1 2 rfl,
    (c5_quota_share ⟨some 500, some 4, some 2, some 9, false⟩
      ⟨some 1000, some 0, some 0, none, false⟩ [("a", 100), ("b", 100)] 30 100
      rfl (by decide)).2.2.1⟩

/-- C6 (code bug): `Dequeue.shift` and `Dequeue.pop` on the empty buffer do
not return a defined empty sentinel; the source dereferences the `null`
`head`/`tail` node and throws a `TypeError` (the repo's own test
`if empty, head and tail return undefined` expects `undefined`).  Only the
peek operations return the `undefined` sentinel. -/
theorem c6_empty_pop_throws :
    Dequeue.shift ([] : List Nat) = .error .typeError ∧
    Dequeue.pop ([] : List Nat) = .error .typeError ∧
    Dequeue.peekFront ([] : List Nat) = none ∧
    Dequeue.peekBack ([] : List Nat) = none :=
  ⟨rfl, rfl, rfl, rfl⟩

/-- C7 (code bug): in the canonical JOIN/PING/LEAVE revision the message
handler's `catch` block logs but does not return, so every unparseable
payload makes the handler throw a `TypeError` (destructuring the undefined
`parsedMessage`) instead of discarding the message; no state is altered. -/
theorem c7_malformed_message_throws (selfId : String) (hb now : Nat)
    (st : RQMState) (raw : String) :
    messageV2 selfId hb now st (.malformed raw) = .error .typeError := rfl

/-- C8: constructing a `QuotaManager` from a quota in which exactly one of
`interval`/`rate` is set fails synchronously with the invalid-quota error;
constructing from a quota with neither `concurrency` nor a rate/interval
pair succeeds and yields a limiter whose `start` returns `true`
unconditionally (incrementing `activeCount`). -/
theorem c8_construct_validation (q : Quota) :
    (q.interval.isSome ≠ q.rate.isSome →
      QuotaManager.construct q = .error .invalidQuota) ∧
    (q.concurrency = none → q.interval = none → q.rate = none →
      QuotaManager.construct q = .ok q ∧
      ∀ (now : Nat) (s : QMState),
        QuotaManager.start q now s =
          (true, { s with activeCount := s.activeCount + 1 })) := by
  constructor
  · intro hne
    unfold QuotaManager.construct QuotaManager.quotaInvalid
    rcases hI : q.interval with _ | I <;> rcases hr : q.rate with _ | r <;>
      simp_all
  · intro hcn hIn hrn
    constructor
    · unfold QuotaManager.construct QuotaManager.quotaInvalid
      rw [hIn, hrn]
      simp
    · intro now s
      unfold QuotaManager.start QuotaManager.concurrencyBlocked
      rw [hcn, hIn, hrn]
      simp

theorem c8_witness :
    QuotaManager.construct ⟨some 1000, none, none, none, false⟩ =
      .error .invalidQuota ∧
    QuotaManager.construct ⟨none, none, none, none, false⟩ =
      .ok ⟨none, none, none, none, false⟩ :=
  ⟨(c8_construct_validation ⟨some 1000, none, none, none, false⟩).1 (by decide),
    ((c8_construct_validation ⟨none, none, none, none, false⟩).2 rfl rfl rfl).1⟩

/-- C9 counterexample: a single unmatched `end()` on a fresh manager drives
`activeCount` to `-1`: `end` does not clamp at 0 and `activeCount ≥ 0`
fails for this operation sequence. -/
theorem c9_counterexample :
    (runQM ⟨none, none, none, none, false⟩ qmInit
      [QMOp.done 0]).activeCount = -1 := by
  decide

/-- C9 (amended): `end` never fails but decrements `activeCount`
unconditionally, with no clamping, so an unmatched `end` drives it
negative; `activeCount ≥ 0` does hold after every operation sequence in
which every `end` is preceded by a matching successful `start`. -/
theorem c9_release_nonneg (q : Quota) (ops : List QMOp)
    (hm : wellMatched q qmInit 0 ops = true) :
    (∀ s : QMState, (QuotaManager.endCall s).activeCount = s.activeCount - 1) ∧
    0 ≤ (runQM q qmInit ops).activeCount :=
  ⟨fun _ => rfl, c9_run_nonneg q ops qmInit 0 rfl hm⟩

theorem c9_witness :
    wellMatched ⟨none, none, none, none, false⟩ qmInit 0
      [QMOp.start 0, QMOp.done 1] = true ∧
    0 ≤ (runQM ⟨none, none, none, none, false⟩ qmInit
      [QMOp.start 0, QMOp.done 1]).activeCount :=
  ⟨by decide,
    (c9_release_nonneg ⟨none, none, none, none, false⟩
      [QMOp.start 0, QMOp.done 1] (by decide)).2⟩

/-- C10: a queued call whose `maxDelay` timer fires is still popped later
by the drain cycle; the pop consumed an admission (`start` returned true,
incrementing `activeCount` and, when a rate quota is configured, appending
a history timestamp) yet the popped `run` closure returns without invoking
the wrapped function and without ever calling `end()`, so
`activeCount = |started| + |skipped| - |completed|` and the `skipped`
slots are never released (`activeCount` stays at least `|skipped|`, since
only started calls ever complete). -/
theorem c10_timeout_admission_leak (q : Quota) (evs : List LEvent) :
    ((runL q lInit evs).qm.activeCount =
      ((runL q lInit evs).started.length : Int) +
        ((runL q lInit evs).skipped.length : Int) -
        ((runL q lInit evs).completed.length : Int)) ∧
    (∀ id ∈ (runL q lInit evs).skipped,
      id ∈ (runL q lInit evs).fired ∧ id ∉ (runL q lInit evs).started) ∧
    ((runL q lInit evs).completed.length ≤ (runL q lInit evs).started.length) ∧
    (((runL q lInit evs).skipped.length : Int) ≤
      (runL q lInit evs).qm.activeCount) ∧
    (∀ (I r now : Nat) (sq : QMState), q.interval = some I → q.rate = some r →
      (QuotaManager.start q now sq).1 = true →
      (QuotaManager.start q now sq).2.activeCount = sq.activeCount + 1 ∧
      (QuotaManager.start q now sq).2.history =
        QuotaManager.removeExpiredHistory I now sq.history ++ [now]) := by
  have h := runL_inv q evs
  have hnodup : ((runL q lInit evs).popped ++ (runL q lInit evs).queue).Nodup := by
    rw [h.perm]
    exact List.nodup_range _
  have hpn : (runL q lInit evs).popped.Nodup := (List.nodup_append.mp hnodup).1
  have hsn : (runL q lInit evs).started.Nodup := hpn.sublist h.startedSub
  have hclen : (runL q lInit evs).completed.length ≤
      (runL q lInit evs).started.length := by
    have hsub : (runL q lInit evs).completed.toFinset ⊆
        (runL q lInit evs).started.toFinset := by
      intro x hx
      rw [List.mem_toFinset] at hx ⊢
      exact h.completedSub x hx
    calc (runL q lInit evs).completed.length
        = (runL q lInit evs).completed.toFinset.card :=
          (List.toFinset_card_of_nodup h.completedNodup).symm
      _ ≤ (runL q lInit evs).started.toFinset.card := Finset.card_le_card hsub
      _ ≤ (runL q lInit evs).started.length := List.toFinset_card_le _
  refine ⟨?_, ?_, hclen, ?_, ?_⟩
  · rw [h.activeEq]
    have := h.pops
    omega
  · intro id hk
    exact ⟨h.skippedFired id hk,
      fun hs => h.startedNotFired id hs (h.skippedFired id hk)⟩
  · rw [h.activeEq]
    have := h.pops
    omega
  · intro I r now sq hI hr hb
    rcases start_rate_cases q hI hr now sq with hcase | ⟨_, hcase⟩ | ⟨_, hcase⟩
    · rw [hcase] at hb
      simp at hb
    · rw [hcase] at hb
      simp at hb
    · rw [hcase]
      exact ⟨rfl, rfl⟩

theorem c10_witness :
    1 ∈ (runL ⟨none, none, some 1, some 5, false⟩ lInit
      [.schedule 0, .schedule 0, .timerFire 1 5, .complete 0 6]).skipped ∧
    (1 ∈ (runL ⟨none, none, some 1, some 5, false⟩ lInit
      [.schedule 0, .schedule 0, .timerFire 1 5, .complete 0 6]).fired ∧
      1 ∉ (runL ⟨none, none, some 1, some 5, false⟩ lInit
        [.schedule 0, .schedule 0, .timerFire 1 5, .complete 0 6]).started) :=
  ⟨by decide,
    (c10_timeout_admission_leak ⟨none, none, some 1, some 5, false⟩
      [.schedule 0, .schedule 0, .timerFire 1 5, .complete 0 6]).2.1 1
      (by decide)⟩
